import Mathlib

/-!
Verification of the string and file utilities of vimb's util.c.

Strings are modelled as lists of characters (the bytes of a NUL-terminated C
string, NUL excluded).  File and environment access is modelled by passing the
outcome of the OS call as an explicit argument; stderr output is collected as
an explicit list of lines.
-/

set_option autoImplicit false

namespace Vimb

/-- Shorthand turning a string literal into the character-list model. -/
def str (s : String) : List Char := s.toList

/-- Whitespace test matching g_ascii_isspace: space, tab, newline, carriage
return, form feed and vertical tab. -/
def asciiIsspace (c : Char) : Bool :=
  c == ' ' || c == '\t' || c == '\n' || c == '\r' || c == '\x0c' || c == '\x0b'

/-- g_strstrip: remove leading and trailing ASCII whitespace. -/
def g_strstrip (s : List Char) : List Char :=
  ((s.dropWhile asciiIsspace).reverse.dropWhile asciiIsspace).reverse

/-- Split on the newline character, one field per delimiter occurrence; a
final newline therefore yields a trailing empty field. -/
def splitNl : List Char → List (List Char)
  | [] => [[]]
  | c :: cs =>
    if c = '\n' then [] :: splitNl cs
    else
      match splitNl cs with
      | [] => [[c]]
      | l :: ls => (c :: l) :: ls

/-- g_strsplit on the newline delimiter; GLib maps the empty string to the
empty vector as a special case. -/
def g_strsplit_nl (content : List Char) : List (List Char) :=
  if content = [] then [] else splitNl content

/-- Outcome of the OS-level attempt to read a file: the file is missing or
not regular, reading failed with an error message, or reading succeeded. -/
inductive ReadResult where
  | missing
  | ioError (msg : List Char)
  | ok (content : List Char)
deriving DecidableEq

/-- The stderr line printed by util_get_file_contents on a read failure:
"Cannot open <filename>: <reason>\n". -/
def cannotOpenLine (filename reason : List Char) : List Char :=
  str "Cannot open " ++ filename ++ str ": " ++ reason ++ ['\n']

/-- util_get_file_contents: the content on success, otherwise NULL after
printing a diagnostic; the second component collects the stderr lines. -/
def util_get_file_contents (filename : List Char) (fs : ReadResult) :
    Option (List Char) × List (List Char) :=
  match fs with
  | .ok c => (some c, [])
  | .missing => (none, [cannotOpenLine filename (str "file not found")])
  | .ioError msg => (none, [cannotOpenLine filename msg])

/-- util_get_lines: the file content split on newlines, NULL when the read
failed. -/
def util_get_lines (filename : List Char) (fs : ReadResult) :
    Option (List (List Char)) × List (List Char) :=
  match util_get_file_contents filename fs with
  | (some c, e) => (some (g_strsplit_nl c), e)
  | (none, e) => (none, e)

/-- Delete the first entry the equality function reports equal to the value;
the C loop deletes the first match and breaks (unique_func is a GCompareFunc,
returning 0 exactly on equal entries, so eq v x = true models
unique_func(v, x) == 0). -/
def removeFirst {α : Type} (eq : α → α → Bool) (v : α) : List α → List α
  | [] => []
  | x :: xs => if eq v x then xs else x :: removeFirst eq v xs

/-- One iteration of the util_file_to_unique_list loop: strip the line, skip
it when empty, apply the content function, skip when it returns NULL,
otherwise delete the first equal entry and prepend the value. -/
def uniqueListStep {α : Type} (func : List Char → Option α) (eq : α → α → Bool)
    (gl : List α) (line : List Char) : List α :=
  if g_strstrip line = [] then gl
  else
    match func (g_strstrip line) with
    | none => gl
    | some value => value :: removeFirst eq value gl

/-- util_file_to_unique_list: fold the file's lines through uniqueListStep
starting from the empty list and reverse the accumulator at the end. -/
def util_file_to_unique_list {α : Type} (func : List Char → Option α)
    (eq : α → α → Bool) (filename : List Char) (fs : ReadResult) : List α :=
  match (util_get_lines filename fs).1 with
  | none => []
  | some lines => (lines.foldl (uniqueListStep func eq) []).reverse

/-- The reference fold of the specification: lines processed top to bottom,
trimmed, blank and unparsable lines skipped, and each parsed value evicting
the entry equal to it and landing at the end, so the list stays in ascending
last-seen order. -/
def specUniqueStep {α : Type} (func : List Char → Option α) (eq : α → α → Bool)
    (acc : List α) (line : List Char) : List α :=
  if g_strstrip line = [] then acc
  else
    match func (g_strstrip line) with
    | none => acc
    | some value => removeFirst eq value acc ++ [value]

/-- The specification's description of the loader, as a single left fold over
the newline-separated lines of the content. -/
def specUniqueList {α : Type} (func : List Char → Option α) (eq : α → α → Bool)
    (content : List Char) : List α :=
  (splitNl content).foldl (specUniqueStep func eq) []

/-- Identity content function, used by the spec's concrete examples. -/
def idContent (l : List Char) : Option (List Char) := some l

/-- String equality as the dedup function of the spec's concrete examples. -/
def eqStr (a b : List Char) : Bool := a == b

/-- util_get_home_dir: the HOME environment variable when it is set,
otherwise the platform home directory returned by g_get_home_dir. -/
def util_get_home_dir (envHome : Option (List Char)) (platformHome : List Char) :
    List Char :=
  match envHome with
  | some d => d
  | none => platformHome

/-- util_build_path on the string level: dispatch on the first character of
path; platformHome stands for the value returned by g_get_home_dir (the call
the C code makes for a leading tilde) and cwd for g_get_current_dir.
head? models the test of path[0] in C, where the empty string reads the NUL
terminator and takes neither the slash nor the tilde branch. -/
def util_build_path (platformHome cwd path : List Char)
    (dir : Option (List Char)) : List Char :=
  if path.head? = some '/' then path
  else if path.head? = some '~' then
    if path.tail.head? = some '/' then platformHome ++ path.tail
    else platformHome ++ '/' :: path.tail
  else
    match dir with
    | some d => d ++ '/' :: path
    | none => cwd ++ '/' :: path

/-- The part of the string before its last slash, when it has one; models the
strrchr-based truncation the C code applies before g_mkdir_with_parents. -/
def lastSlashPre : List Char → Option (List Char)
  | [] => none
  | c :: cs =>
    match lastSlashPre cs with
    | some p => some (c :: p)
    | none => if c = '/' then some [] else none

/-- Whether the modelled filesystem (a list of directories with their
permission modes) holds a directory of the given name. -/
def dirExists (fs : List (List Char × Nat)) (d : List Char) : Bool :=
  fs.any fun e => e.1 == d

/-- Creating one directory: no change when it exists, otherwise it is
recorded with the given permission mode. -/
def mkdirOne (fs : List (List Char × Nat)) (d : List Char) (mode : Nat) :
    List (List Char × Nat) :=
  if dirExists fs d then fs else (d, mode) :: fs

/-- The proper ancestors of a directory path: the part before each slash. -/
def properAncestors (d : List Char) : List (List Char) :=
  (List.range d.length).filterMap fun i =>
    if d.getD i ' ' = '/' then some (d.take i) else none

/-- Modelled from the spec: g_mkdir_with_parents is the GLib collaborator
(not part of src/) that creates the named directory and every missing
ancestor with the given permission mode, leaving existing ones alone. -/
def g_mkdir_with_parents (fs : List (List Char × Nat)) (d : List Char)
    (mode : Nat) : List (List Char × Nat) :=
  (properAncestors d ++ [d]).foldl (fun s p => mkdirOne s p mode) fs

/-- util_build_path together with its directory-creation side effect: the C
code splits the resolved path at its last slash and calls
g_mkdir_with_parents with mode 0700 on that part. -/
def util_build_path_fs (fs : List (List Char × Nat))
    (platformHome cwd path : List Char) (dir : Option (List Char)) :
    List Char × List (List Char × Nat) :=
  match lastSlashPre (util_build_path platformHome cwd path dir) with
  | some pre =>
    (util_build_path platformHome cwd path dir, g_mkdir_with_parents fs pre 0o700)
  | none => (util_build_path platformHome cwd path dir, fs)

/-- One window comparison of util_strcasestr: the inner loop succeeds when
every needle byte equals the haystack byte at the same offset under toupper
folding (the NUL default never shows up for the windows the outer loop
visits, as the bounds conjunct of the search theorem states). -/
def matchesAt (haystack needle : List Char) (i : Nat) : Bool :=
  (List.range needle.length).all fun j =>
    (haystack.getD (i + j) '\x00').toUpper == (needle.getD j '\x00').toUpper

/-- The outer loop of util_strcasestr: try successive start offsets, with k
windows left to try. -/
def scanLoop (haystack needle : List Char) : Nat → Nat → Option Nat
  | _, 0 => none
  | i, k + 1 =>
    if matchesAt haystack needle i then some i
    else scanLoop haystack needle (i + 1) k

/-- util_strcasestr: return the first window offset that matches, scanning
hlen = strlen(haystack) - strlen(needle) + 1 windows; a needle longer than
the haystack makes hlen non-positive, so no window is tried at all. -/
def util_strcasestr (haystack needle : List Char) : Option Nat :=
  scanLoop haystack needle 0 (haystack.length + 1 - needle.length)

/-- The specification's matching predicate: the window at offset i lies
inside the haystack and every needle position agrees under ASCII uppercase
folding. -/
def MatchSpec (haystack needle : List Char) (i : Nat) : Prop :=
  i + needle.length ≤ haystack.length ∧
  ∀ j, j < needle.length →
    (haystack.getD (i + j) '\x00').toUpper = (needle.getD j '\x00').toUpper

/-- Whether the first list starts the second one. -/
def beginsWith : List Char → List Char → Bool
  | [], _ => true
  | _ :: _, [] => false
  | a :: as, b :: bs => a == b && beginsWith as bs

/-- The delimiter occurs somewhere in the string. -/
def occursIn (sep s : List Char) : Prop := ∃ l r, s = l ++ sep ++ r

/-- g_strsplit with a general non-empty delimiter, matched greedily left to
right, one field per occurrence. -/
def splitSep (sep : List Char) : List Char → List (List Char)
  | [] => [[]]
  | c :: cs =>
    if sep ≠ [] ∧ beginsWith sep (c :: cs) = true then
      [] :: splitSep sep (cs.drop (sep.length - 1))
    else
      match splitSep sep cs with
      | [] => [[c]]
      | l :: ls => (c :: l) :: ls
termination_by s => s.length
decreasing_by
  · simp only [List.length_drop, List.length_cons]; omega
  · simp only [List.length_cons]; omega

/-- g_strjoinv: join the fields with the separator in between. -/
def g_strjoinv (sepr : List Char) : List (List Char) → List Char
  | [] => []
  | x :: xs =>
    match xs with
    | [] => x
    | _ :: _ => x ++ sepr ++ g_strjoinv sepr xs

/-- util_str_replace: NULL text propagates, otherwise the text is split on
the search string and the fields are joined with the replacement (GLib maps
the empty string to the empty vector before the join). -/
def util_str_replace (search replace : List Char) (text : Option (List Char)) :
    Option (List Char) :=
  match text with
  | none => none
  | some s => some (g_strjoinv replace (if s = [] then [] else splitSep search s))

/-- Observable outcome of util_create_tmp_file: the returned boolean, the
path output argument (none when it was freed on a failure path) and whether
a file is left on disk at the temporary path. -/
structure TmpResult where
  success : Bool
  pathOut : Option (List Char)
  fileRemains : Bool

/-- util_create_tmp_file: openRes is the outcome of g_file_open_tmp (none
when no temporary file could be created, some p when one was created at path
p) and written is the byte count the write call reports (-1 on a write
error); on a short write the file is closed and unlinked before false is
returned, and on both failure paths the path string is freed. -/
def util_create_tmp_file (content : List Char) (openRes : Option (List Char))
    (written : Int) : TmpResult :=
  match openRes with
  | none => ⟨false, none, false⟩
  | some p =>
    if written < (content.length : Int) then ⟨false, none, false⟩
    else ⟨true, some p, true⟩

/-- A Bool that is not true is false. -/
theorem eq_false_of_not_true {b : Bool} (h : ¬ b = true) : b = false := by
  cases b
  · rfl
  · exact absurd rfl h

/-- removeFirst is the identity when no entry is equal to the value. -/
theorem removeFirst_of_all_false {α : Type} (eq : α → α → Bool) (v : α)
    (l : List α) (h : ∀ x ∈ l, eq v x = false) : removeFirst eq v l = l := by
  induction l with
  | nil => rfl
  | cons x xs ih =>
    have hx := h x (List.mem_cons_self x xs)
    simp only [removeFirst, hx]
    simp [ih fun y hy => h y (List.mem_cons_of_mem x hy)]

/-- removeFirst over an append acts on the left part when it holds a match. -/
theorem removeFirst_append_left {α : Type} (eq : α → α → Bool) (v : α)
    (xs ys : List α) (h : xs.any (eq v) = true) :
    removeFirst eq v (xs ++ ys) = removeFirst eq v xs ++ ys := by
  induction xs with
  | nil => simp at h
  | cons a t ih =>
    cases hva : eq v a with
    | true => simp [removeFirst, hva]
    | false =>
      have ht : t.any (eq v) = true := by simpa [hva] using h
      simp [removeFirst, hva, ih ht]

/-- removeFirst over an append acts on the right part when the left part has
no match. -/
theorem removeFirst_append_right {α : Type} (eq : α → α → Bool) (v : α)
    (xs ys : List α) (h : xs.any (eq v) = false) :
    removeFirst eq v (xs ++ ys) = xs ++ removeFirst eq v ys := by
  induction xs with
  | nil => rfl
  | cons a t ih =>
    have hva : eq v a = false := by
      cases hva : eq v a with
      | false => rfl
      | true => simp [hva] at h
    have ht : t.any (eq v) = false := by simpa [hva] using h
    simp [removeFirst, hva, ih ht]

/-- When the list holds at most one match, removeFirst leaves no match. -/
theorem removeFirst_no_match {α : Type} (eq : α → α → Bool) (v : α)
    (l : List α) (h : l.countP (eq v) ≤ 1) :
    ∀ x ∈ removeFirst eq v l, eq v x = false := by
  induction l with
  | nil => intro x hx; simp [removeFirst] at hx
  | cons a t ih =>
    cases hva : eq v a with
    | true =>
      have h0 : t.countP (eq v) = 0 := by
        rw [List.countP_cons, hva] at h
        simpa using h
      intro x hx
      simp only [removeFirst, hva, if_pos] at hx
      exact eq_false_of_not_true (List.countP_eq_zero.mp h0 x hx)
    | false =>
      have ht : t.countP (eq v) ≤ 1 := by
        rw [List.countP_cons, hva] at h
        simpa using h
      intro x hx
      simp only [removeFirst, hva] at hx
      rcases List.mem_cons.mp (by simpa using hx) with hxa | hx'
      · rw [hxa]; exact hva
      · exact ih ht x hx'

/-- In a pairwise-distinct list every value has at most one equal entry, when
the equality function is symmetric and transitive. -/
theorem countP_le_one_of_pairwise {α : Type} (eq : α → α → Bool)
    (hsymm : ∀ a b, eq a b = true → eq b a = true)
    (htrans : ∀ a b c, eq a b = true → eq b c = true → eq a c = true)
    (v : α) (l : List α) (hpw : l.Pairwise fun a b => eq a b = false) :
    l.countP (eq v) ≤ 1 := by
  induction l with
  | nil => simp
  | cons a t ih =>
    rcases List.pairwise_cons.mp hpw with ⟨ha, ht⟩
    rw [List.countP_cons]
    cases hva : eq v a with
    | false => simpa [hva] using ih ht
    | true =>
      have h0 : t.countP (eq v) = 0 := by
        rw [List.countP_eq_zero]
        intro x hx hvx
        have hax : eq a x = true := htrans a v x (hsymm v a hva) hvx
        rw [ha x hx] at hax
        exact Bool.false_ne_true hax
      simp [h0, hva]

/-- removeFirst returns a sublist. -/
theorem removeFirst_sublist {α : Type} (eq : α → α → Bool) (v : α) (l : List α) :
    List.Sublist (removeFirst eq v l) l := by
  induction l with
  | nil => simp [removeFirst]
  | cons a t ih =>
    cases hva : eq v a with
    | true => simp [removeFirst, hva]
    | false => simpa [removeFirst, hva] using List.Sublist.cons₂ a ih

/-- The loop body keeps the accumulator pairwise distinct under the equality
function. -/
theorem uniqueListStep_pairwise {α : Type} (func : List Char → Option α)
    (eq : α → α → Bool)
    (hsymm : ∀ a b, eq a b = true → eq b a = true)
    (htrans : ∀ a b c, eq a b = true → eq b c = true → eq a c = true)
    (gl : List α) (line : List Char)
    (hpw : gl.Pairwise fun a b => eq a b = false) :
    (uniqueListStep func eq gl line).Pairwise fun a b => eq a b = false := by
  unfold uniqueListStep
  split
  · exact hpw
  · split
    · exact hpw
    · refine List.pairwise_cons.mpr ⟨?_, ?_⟩
      · exact removeFirst_no_match eq _ gl
          (countP_le_one_of_pairwise eq hsymm htrans _ gl hpw)
      · exact List.Pairwise.sublist (removeFirst_sublist eq _ gl) hpw

/-- With at most one match present, deleting the first match seen from the
right is deleting the first match seen from the left. -/
theorem removeFirst_reverse {α : Type} (eq : α → α → Bool) (v : α)
    (l : List α) (h : l.countP (eq v) ≤ 1) :
    removeFirst eq v l.reverse = (removeFirst eq v l).reverse := by
  induction l with
  | nil => rfl
  | cons a t ih =>
    rw [List.reverse_cons]
    cases hva : eq v a with
    | true =>
      have h0 : t.countP (eq v) = 0 := by
        rw [List.countP_cons, hva] at h
        simpa using h
      have hnone : t.reverse.any (eq v) = false :=
        List.any_eq_false.mpr fun x hx =>
          List.countP_eq_zero.mp h0 x (List.mem_reverse.mp hx)
      rw [removeFirst_append_right eq v t.reverse [a] hnone]
      simp [removeFirst, hva]
    | false =>
      have ht : t.countP (eq v) ≤ 1 := by
        rw [List.countP_cons, hva] at h
        simpa using h
      cases hany : t.reverse.any (eq v) with
      | true =>
        rw [removeFirst_append_left eq v t.reverse [a] hany, ih ht]
        simp [removeFirst, hva]
      | false =>
        have hallt : ∀ x ∈ t, eq v x = false := fun x hx =>
          eq_false_of_not_true
            (List.any_eq_false.mp hany x (List.mem_reverse.mpr hx))
        rw [removeFirst_append_right eq v t.reverse [a] hany]
        simp [removeFirst, hva, removeFirst_of_all_false eq v t hallt]

/-- Reversing after a loop iteration is one step of the specification's fold
on the reversed accumulator. -/
theorem uniqueListStep_reverse {α : Type} (func : List Char → Option α)
    (eq : α → α → Bool)
    (hsymm : ∀ a b, eq a b = true → eq b a = true)
    (htrans : ∀ a b c, eq a b = true → eq b c = true → eq a c = true)
    (gl : List α) (line : List Char)
    (hpw : gl.Pairwise fun a b => eq a b = false) :
    (uniqueListStep func eq gl line).reverse = specUniqueStep func eq gl.reverse line := by
  unfold uniqueListStep specUniqueStep
  split
  · rfl
  · split
    · rfl
    · rw [List.reverse_cons, removeFirst_reverse eq _ gl
        (countP_le_one_of_pairwise eq hsymm htrans _ gl hpw)]

/-- The whole loop keeps the accumulator pairwise distinct. -/
theorem foldl_uniqueListStep_pairwise {α : Type} (func : List Char → Option α)
    (eq : α → α → Bool)
    (hsymm : ∀ a b, eq a b = true → eq b a = true)
    (htrans : ∀ a b c, eq a b = true → eq b c = true → eq a c = true)
    (lines : List (List Char)) :
    ∀ gl : List α, gl.Pairwise (fun a b => eq a b = false) →
      (lines.foldl (uniqueListStep func eq) gl).Pairwise fun a b => eq a b = false := by
  induction lines with
  | nil => intro gl hpw; exact hpw
  | cons line rest ih =>
    intro gl hpw
    rw [List.foldl_cons]
    exact ih _ (uniqueListStep_pairwise func eq hsymm htrans gl line hpw)

/-- The reversed loop fold is the specification's fold. -/
theorem foldl_code_spec {α : Type} (func : List Char → Option α)
    (eq : α → α → Bool)
    (hsymm : ∀ a b, eq a b = true → eq b a = true)
    (htrans : ∀ a b c, eq a b = true → eq b c = true → eq a c = true)
    (lines : List (List Char)) :
    ∀ gl : List α, gl.Pairwise (fun a b => eq a b = false) →
      (lines.foldl (uniqueListStep func eq) gl).reverse
        = lines.foldl (specUniqueStep func eq) gl.reverse := by
  induction lines with
  | nil => intro gl _; rfl
  | cons line rest ih =>
    intro gl hpw
    rw [List.foldl_cons, List.foldl_cons,
      ← uniqueListStep_reverse func eq hsymm htrans gl line hpw]
    exact ih _ (uniqueListStep_pairwise func eq hsymm htrans gl line hpw)

/-- C1: util_file_to_unique_list agrees with the specification's reference
fold on every readable file, for every symmetric and transitive equality
function: lines are split on newline keeping a trailing empty element,
trimmed, blank lines are skipped without a parse call, NULL parses are
skipped, each parsed value evicts the entry equal to it and lands at the
last-seen position, and the final list is in ascending last-seen order; in
particular lines a, b, a with identity parse and string equality give
[b, a], and unique lines x, y, z give [x, y, z]. -/
theorem util_file_to_unique_list_matches_spec :
    (∀ (α : Type) (func : List Char → Option α) (eq : α → α → Bool),
      (∀ a b, eq a b = true → eq b a = true) →
      (∀ a b c, eq a b = true → eq b c = true → eq a c = true) →
      ∀ (filename content : List Char),
        util_file_to_unique_list func eq filename (ReadResult.ok content)
          = specUniqueList func eq content)
    ∧ util_file_to_unique_list idContent eqStr [] (ReadResult.ok (str "a\nb\na"))
        = [str "b", str "a"]
    ∧ util_file_to_unique_list idContent eqStr [] (ReadResult.ok (str "x\ny\nz"))
        = [str "x", str "y", str "z"] := by
  refine ⟨?_, by decide, by decide⟩
  intro α func eq hsymm htrans filename content
  show ((g_strsplit_nl content).foldl (uniqueListStep func eq) []).reverse
    = (splitNl content).foldl (specUniqueStep func eq) []
  by_cases hc : content = []
  · subst hc; rfl
  · rw [g_strsplit_nl, if_neg hc]
    exact foldl_code_spec func eq hsymm htrans (splitNl content) [] List.Pairwise.nil

/-- Witness for C1 at identity parse and string equality on lines a, b, a. -/
theorem util_file_to_unique_list_matches_spec_witness :
    util_file_to_unique_list idContent eqStr [] (ReadResult.ok (str "a\nb\na"))
      = specUniqueList idContent eqStr (str "a\nb\na") :=
  util_file_to_unique_list_matches_spec.1 (List Char) idContent eqStr
    (fun a b h => by simp only [eqStr, beq_iff_eq] at h ⊢; exact h.symm)
    (fun a b c h1 h2 => by
      simp only [eqStr, beq_iff_eq] at h1 h2 ⊢; exact h1.trans h2)
    [] (str "a\nb\na")

/-- C4: for every file and every equality function that is an equivalence
relation, the returned list holds at most one entry per equality class: no
two entries of the result are equal under the function. -/
theorem util_file_to_unique_list_unique :
    ∀ (α : Type) (func : List Char → Option α) (eq : α → α → Bool),
      (∀ a, eq a a = true) →
      (∀ a b, eq a b = true → eq b a = true) →
      (∀ a b c, eq a b = true → eq b c = true → eq a c = true) →
      ∀ (filename : List Char) (fs : ReadResult),
        (util_file_to_unique_list func eq filename fs).Pairwise
          fun a b => eq a b = false := by
  intro α func eq _hrefl hsymm htrans filename fs
  unfold util_file_to_unique_list
  split
  · exact List.Pairwise.nil
  · rename_i lines hlines
    rw [List.pairwise_reverse]
    have hinv := foldl_uniqueListStep_pairwise func eq hsymm htrans lines []
      List.Pairwise.nil
    refine hinv.imp fun {a b} hab => ?_
    refine eq_false_of_not_true fun hba => ?_
    rw [hsymm b a hba] at hab
    exact Bool.noConfusion hab

/-- Witness for C4 at identity parse and string equality on lines a, b, a. -/
theorem util_file_to_unique_list_unique_witness :
    (util_file_to_unique_list idContent eqStr []
        (ReadResult.ok (str "a\nb\na"))).Pairwise
      (fun a b => eqStr a b = false) :=
  util_file_to_unique_list_unique (List Char) idContent eqStr
    (fun a => by simp [eqStr])
    (fun a b h => by simp only [eqStr, beq_iff_eq] at h ⊢; exact h.symm)
    (fun a b c h1 h2 => by
      simp only [eqStr, beq_iff_eq] at h1 h2 ⊢; exact h1.trans h2)
    [] (ReadResult.ok (str "a\nb\na"))

/-- C2: util_build_path dispatches with fixed precedence: a path starting
with a slash is returned as is for every dir; else a path starting with a
tilde gets the home directory substituted for the tilde, with a separator
inserted only when the character after the tilde is not already a slash;
else a non-NULL dir gives dir ++ "/" ++ path; else cwd ++ "/" ++ path. -/
theorem util_build_path_dispatch :
    ∀ (platformHome cwd path : List Char) (dir : Option (List Char)),
      (path.head? = some '/' → util_build_path platformHome cwd path dir = path)
      ∧ (path.head? = some '~' → path.tail.head? = some '/' →
          util_build_path platformHome cwd path dir = platformHome ++ path.tail)
      ∧ (path.head? = some '~' → path.tail.head? ≠ some '/' →
          util_build_path platformHome cwd path dir
            = platformHome ++ '/' :: path.tail)
      ∧ (path.head? ≠ some '/' → path.head? ≠ some '~' →
          ∀ d, dir = some d →
            util_build_path platformHome cwd path dir = d ++ '/' :: path)
      ∧ (path.head? ≠ some '/' → path.head? ≠ some '~' → dir = none →
          util_build_path platformHome cwd path dir = cwd ++ '/' :: path) := by
  intro platformHome cwd path dir
  refine ⟨?_, ?_, ?_, ?_, ?_⟩
  · intro h1
    simp [util_build_path, h1]
  · intro h1 h2
    have hne : path.head? ≠ some '/' := by rw [h1]; decide
    simp [util_build_path, h1, h2, hne]
  · intro h1 h2
    have hne : path.head? ≠ some '/' := by rw [h1]; decide
    rw [List.head?_tail] at h2
    simp [util_build_path, h1, h2, hne]
  · intro h1 h2 d hd
    simp [util_build_path, h1, h2, hd]
  · intro h1 h2 hd
    simp [util_build_path, h1, h2, hd]

/-- Witness for C2: an absolute path is returned unchanged, a base directory
being present notwithstanding. -/
theorem util_build_path_dispatch_witness :
    util_build_path (str "/home/u") (str "/cwd") (str "/a/b")
      (some (str "/base")) = str "/a/b" :=
  (util_build_path_dispatch (str "/home/u") (str "/cwd") (str "/a/b")
    (some (str "/base"))).1 rfl

/-- C3: util_get_home_dir does consult HOME first and fall back to the
platform home directory, but util_build_path substitutes the value of
g_get_home_dir directly, bypassing util_get_home_dir, so with HOME set to
/h1 while the platform home directory is /h2, a ~/x path resolves under /h2,
not under the value of HOME. -/
theorem util_build_path_bypasses_HOME :
    util_get_home_dir (some (str "/h1")) (str "/h2") = str "/h1"
    ∧ util_get_home_dir none (str "/h2") = str "/h2"
    ∧ util_build_path (str "/h2") (str "/cwd") (str "~/x") none = str "/h2/x"
    ∧ util_build_path (str "/h2") (str "/cwd") (str "~/x") none
        ≠ util_get_home_dir (some (str "/h1")) (str "/h2") ++ str "/x" := by
  refine ⟨rfl, rfl, by decide, by decide⟩

/-- C5: when the file is missing or unreadable, util_file_to_unique_list
returns the empty list (the read layer hands NULL to the loader, which
returns before its loop), and the read layer prints one stderr line that
holds the filename and the reason ("file not found" for a missing file, the
error message otherwise). -/
theorem util_file_to_unique_list_read_failure :
    ∀ (α : Type) (func : List Char → Option α) (eq : α → α → Bool)
      (filename : List Char),
      (util_file_to_unique_list func eq filename ReadResult.missing = []
        ∧ (util_get_file_contents filename ReadResult.missing).2
            = [cannotOpenLine filename (str "file not found")])
      ∧ (∀ msg,
          util_file_to_unique_list func eq filename (ReadResult.ioError msg) = []
          ∧ (util_get_file_contents filename (ReadResult.ioError msg)).2
              = [cannotOpenLine filename msg])
      ∧ (∀ reason, occursIn filename (cannotOpenLine filename reason)
          ∧ occursIn reason (cannotOpenLine filename reason)) := by
  intro α func eq filename
  refine ⟨⟨rfl, rfl⟩, fun msg => ⟨rfl, rfl⟩, fun reason => ⟨?_, ?_⟩⟩
  · exact ⟨str "Cannot open ", str ": " ++ reason ++ ['\n'],
      by simp [cannotOpenLine, List.append_assoc]⟩
  · exact ⟨str "Cannot open " ++ filename ++ str ": ", ['\n'],
      by simp [cannotOpenLine, List.append_assoc]⟩

/-- beginsWith is the prefix relation. -/
theorem beginsWith_iff : ∀ p t : List Char,
    beginsWith p t = true ↔ ∃ r, t = p ++ r := by
  intro p
  induction p with
  | nil => intro t; simp [beginsWith]
  | cons a as ih =>
    intro t
    cases t with
    | nil =>
      simp only [beginsWith]
      constructor
      · intro h; exact Bool.noConfusion h
      · rintro ⟨r, hr⟩; exact List.noConfusion hr
    | cons b bs =>
      simp only [beginsWith, Bool.and_eq_true, beq_iff_eq, ih bs]
      constructor
      · rintro ⟨hab, r, hr⟩
        exact ⟨r, by rw [hab, hr]; rfl⟩
      · rintro ⟨r, hr⟩
        injection hr with h1 h2
        exact ⟨h1.symm, r, h2⟩

/-- A string the delimiter does not occur in is a single field. -/
theorem splitSep_of_not_occurs (sep : List Char) (_hsep : sep ≠ []) :
    ∀ s : List Char, ¬ occursIn sep s → splitSep sep s = [s] := by
  intro s
  induction s with
  | nil => intro _; rw [splitSep]
  | cons c cs ih =>
    intro hno
    have hbw : ¬ (beginsWith sep (c :: cs) = true) := by
      intro hb
      rcases (beginsWith_iff sep (c :: cs)).mp hb with ⟨r, hr⟩
      exact hno ⟨[], r, by simpa using hr⟩
    have hcs : ¬ occursIn sep cs := by
      rintro ⟨l, r, hr⟩
      exact hno ⟨c :: l, r, by rw [hr]; rfl⟩
    rw [splitSep, if_neg (fun hcond => hbw hcond.2), ih hcs]

/-- C9: util_str_replace propagates NULL text, and when the non-empty search
string does not occur in the text the result is the text unchanged. -/
theorem util_str_replace_absence :
    (∀ search replace : List Char, util_str_replace search replace none = none)
    ∧ (∀ search replace text : List Char, search ≠ [] →
        ¬ occursIn search text →
        util_str_replace search replace (some text) = some text) := by
  refine ⟨fun _ _ => rfl, ?_⟩
  intro search replace text hsep hno
  rw [util_str_replace]
  by_cases ht : text = []
  · subst ht; rfl
  · rw [if_neg ht, splitSep_of_not_occurs search hsep text hno]
    rfl

/-- A successful window comparison is the pointwise uppercase agreement. -/
theorem matchesAt_iff (haystack needle : List Char) (i : Nat) :
    matchesAt haystack needle i = true ↔
      ∀ j, j < needle.length →
        (haystack.getD (i + j) '\x00').toUpper
          = (needle.getD j '\x00').toUpper := by
  simp [matchesAt, List.all_eq_true, List.mem_range]

/-- A hit of the outer loop lies in the scanned range, matches, and every
earlier scanned offset fails. -/
theorem scanLoop_some (haystack needle : List Char) :
    ∀ (k i r : Nat), scanLoop haystack needle i k = some r →
      i ≤ r ∧ r < i + k ∧ matchesAt haystack needle r = true
        ∧ ∀ m, i ≤ m → m < r → matchesAt haystack needle m = false := by
  intro k
  induction k with
  | zero => intro i r hr; exact absurd hr (by simp [scanLoop])
  | succ k ih =>
    intro i r hr
    rw [scanLoop] at hr
    cases hm : matchesAt haystack needle i with
    | true =>
      rw [hm] at hr
      simp only [if_pos] at hr
      injection hr with hir
      subst hir
      refine ⟨le_rfl, by omega, hm, fun m h1 h2 => ?_⟩
      exact absurd (lt_of_le_of_lt h1 h2) (lt_irrefl i)
    | false =>
      rw [hm] at hr
      simp only [Bool.false_eq_true, if_false] at hr
      rcases ih (i + 1) r hr with ⟨h1, h2, h3, h4⟩
      refine ⟨by omega, by omega, h3, fun m hm1 hm2 => ?_⟩
      by_cases hmi : m = i
      · subst hmi; exact hm
      · exact h4 m (by omega) hm2

/-- A miss of the outer loop means every scanned offset fails. -/
theorem scanLoop_none (haystack needle : List Char) :
    ∀ (k i : Nat), scanLoop haystack needle i k = none →
      ∀ m, i ≤ m → m < i + k → matchesAt haystack needle m = false := by
  intro k
  induction k with
  | zero => intro i _ m h1 h2; exact absurd h2 (by omega)
  | succ k ih =>
    intro i hnone m h1 h2
    rw [scanLoop] at hnone
    cases hm : matchesAt haystack needle i with
    | true => rw [hm] at hnone; simp at hnone
    | false =>
      rw [hm] at hnone
      simp only [Bool.false_eq_true, if_false] at hnone
      by_cases hmi : m = i
      · subst hmi; exact hm
      · exact ih (i + 1) hnone m (by omega) (by omega)

/-- C7: util_strcasestr returns the leftmost offset at which the needle
matches the haystack under byte-wise ASCII uppercase folding; a needle
longer than the haystack yields not-found, and every window the loop scans
stays inside the haystack bounds (i + j < strlen(haystack) for every scanned
window offset i and needle offset j). -/
theorem util_strcasestr_first_match :
    ∀ haystack needle : List Char,
      (∀ i, util_strcasestr haystack needle = some i →
        MatchSpec haystack needle i ∧ ∀ k, k < i → ¬ MatchSpec haystack needle k)
      ∧ (util_strcasestr haystack needle = none →
          ∀ i, ¬ MatchSpec haystack needle i)
      ∧ (haystack.length < needle.length →
          util_strcasestr haystack needle = none)
      ∧ (∀ i j, i < haystack.length + 1 - needle.length →
          j < needle.length → i + j < haystack.length) := by
  intro haystack needle
  refine ⟨?_, ?_, ?_, fun i j h1 h2 => by omega⟩
  · intro i hi
    rcases scanLoop_some haystack needle _ 0 i hi with ⟨_, hlt, hm, hbefore⟩
    refine ⟨⟨by omega, (matchesAt_iff haystack needle i).mp hm⟩, ?_⟩
    intro k hk hspec
    have hmk : matchesAt haystack needle k = true :=
      (matchesAt_iff haystack needle k).mpr hspec.2
    rw [hbefore k (Nat.zero_le k) hk] at hmk
    exact Bool.noConfusion hmk
  · intro hnone i hspec
    have hik : i < haystack.length + 1 - needle.length := by
      rcases hspec with ⟨hb, _⟩; omega
    have hfail := scanLoop_none haystack needle _ 0 hnone i (Nat.zero_le i)
      (by omega)
    rw [(matchesAt_iff haystack needle i).mpr hspec.2] at hfail
    exact Bool.noConfusion hfail
  · intro hlen
    rw [util_strcasestr]
    have h0 : haystack.length + 1 - needle.length = 0 := by omega
    rw [h0]
    rfl

/-- Witness for C7 at the spec's example: "world" in "HeLLo World" is found
first at offset 6. -/
theorem util_strcasestr_first_match_witness :
    MatchSpec (str "HeLLo World") (str "world") 6
      ∧ ∀ k, k < 6 → ¬ MatchSpec (str "HeLLo World") (str "world") k :=
  (util_strcasestr_first_match (str "HeLLo World") (str "world")).1 6 (by decide)

/-- C10: an empty needle matches at offset 0 of every haystack: the first
window is tried (hlen = strlen(haystack) + 1 is positive) and the inner
comparison loop is vacuous. -/
theorem util_strcasestr_empty_needle :
    ∀ haystack : List Char, util_strcasestr haystack [] = some 0 := by
  intro haystack
  rw [util_strcasestr]
  show scanLoop haystack [] 0 (haystack.length + 1) = some 0
  rw [scanLoop]
  simp [matchesAt]

/-- C8: util_create_tmp_file reports failure atomically: a short write gives
a false result with no file left at the temporary path (the unlink runs
before the return), a creation failure gives a false result, and whenever
the result is false no path is handed out. -/
theorem util_create_tmp_file_failure_atomic :
    ∀ (content : List Char) (openRes : Option (List Char)) (written : Int),
      (written < (content.length : Int) →
        (util_create_tmp_file content openRes written).success = false
        ∧ (util_create_tmp_file content openRes written).fileRemains = false)
      ∧ (openRes = none →
          (util_create_tmp_file content openRes written).success = false)
      ∧ ((util_create_tmp_file content openRes written).success = false →
          (util_create_tmp_file content openRes written).pathOut = none) := by
  intro content openRes written
  refine ⟨?_, ?_, ?_⟩
  · intro hw
    cases openRes with
    | none => exact ⟨rfl, rfl⟩
    | some p => simp [util_create_tmp_file, hw]
  · intro h; subst h; rfl
  · intro hs
    cases openRes with
    | none => rfl
    | some p =>
      by_cases hw : written < (content.length : Int)
      · simp [util_create_tmp_file, hw]
      · simp [util_create_tmp_file, hw] at hs

/-- Witness for C8: writing 1 of 2 bytes reports failure and leaves no
file. -/
theorem util_create_tmp_file_failure_atomic_witness :
    (util_create_tmp_file (str "ab") (some (str "/tmp/vimb-123456")) 1).success
        = false
    ∧ (util_create_tmp_file (str "ab")
        (some (str "/tmp/vimb-123456")) 1).fileRemains = false :=
  (util_create_tmp_file_failure_atomic (str "ab")
    (some (str "/tmp/vimb-123456")) 1).1 (by decide)

/-- Witness for C9: replacing x by y in "ab" leaves "ab" unchanged. -/
theorem util_str_replace_absence_witness :
    util_str_replace (str "x") (str "y") (some (str "ab")) = some (str "ab") :=
  util_str_replace_absence.2 (str "x") (str "y") (str "ab") (by decide)
    (fun hocc => by
      rcases hocc with ⟨l, r, hr⟩
      have hx : 'x' ∈ str "ab" := by
        rw [hr]; simp [str, List.mem_append]
      exact absurd hx (by decide))

/-- Every branch of util_build_path yields a path holding a slash. -/
theorem slash_mem_util_build_path (platformHome cwd path : List Char)
    (dir : Option (List Char)) :
    '/' ∈ util_build_path platformHome cwd path dir := by
  by_cases h1 : path.head? = some '/'
  · rw [util_build_path.eq_def, if_pos h1]
    cases path with
    | nil => exact absurd h1 (by simp)
    | cons c cs =>
      have hc : c = '/' := by simpa using h1
      subst hc
      exact List.mem_cons_self '/' cs
  · by_cases h2 : path.head? = some '~'
    · rw [util_build_path.eq_def, if_neg h1, if_pos h2]
      by_cases h3 : path.tail.head? = some '/'
      · rw [if_pos h3]
        refine List.mem_append.mpr (Or.inr ?_)
        cases htail : path.tail with
        | nil => rw [htail] at h3; exact absurd h3 (by simp)
        | cons c cs =>
          have hc : c = '/' := by rw [htail] at h3; simpa using h3
          subst hc
          exact List.mem_cons_self '/' cs
      · rw [if_neg h3]
        exact List.mem_append.mpr (Or.inr (List.mem_cons_self '/' path.tail))
    · rw [util_build_path.eq_def, if_neg h1, if_neg h2]
      cases dir with
      | some d => exact List.mem_append.mpr (Or.inr (List.mem_cons_self '/' path))
      | none => exact List.mem_append.mpr (Or.inr (List.mem_cons_self '/' path))

/-- A string holding a slash has a part before its last slash. -/
theorem lastSlashPre_isSome : ∀ l : List Char, '/' ∈ l →
    ∃ p, lastSlashPre l = some p := by
  intro l
  induction l with
  | nil => intro h; exact absurd h (by simp)
  | cons c cs ih =>
    intro h
    by_cases hcs : '/' ∈ cs
    · rcases ih hcs with ⟨p, hp⟩
      exact ⟨c :: p, by rw [lastSlashPre, hp]⟩
    · have hc : c = '/' := by
        rcases List.mem_cons.mp h with h1 | h2
        · exact h1.symm
        · exact absurd h2 hcs
      cases hlp : lastSlashPre cs with
      | some p => exact ⟨c :: p, by rw [lastSlashPre, hlp]⟩
      | none => exact ⟨[], by rw [lastSlashPre, hlp, if_pos hc]⟩

/-- Existing directories survive the whole creation fold. -/
theorem foldl_mkdirOne_exists_mono (m : Nat) :
    ∀ (L : List (List Char)) (fs : List (List Char × Nat)) (x : List Char),
      dirExists fs x = true →
      dirExists (L.foldl (fun s p => mkdirOne s p m) fs) x = true := by
  intro L
  induction L with
  | nil => intro fs x h; exact h
  | cons a t ih =>
    intro fs x h
    rw [List.foldl_cons]
    apply ih
    rw [mkdirOne]
    split
    · exact h
    · rw [dirExists] at h ⊢
      simp only [List.any_cons]
      rw [h]
      simp

/-- Recorded directory entries survive the whole creation fold. -/
theorem foldl_mkdirOne_mem_mono (m : Nat) :
    ∀ (L : List (List Char)) (fs : List (List Char × Nat))
      (e : List Char × Nat), e ∈ fs →
      e ∈ L.foldl (fun s p => mkdirOne s p m) fs := by
  intro L
  induction L with
  | nil => intro fs e h; exact h
  | cons a t ih =>
    intro fs e h
    rw [List.foldl_cons]
    apply ih
    rw [mkdirOne]
    split
    · exact h
    · exact List.mem_cons_of_mem _ h

/-- After the creation fold every listed directory exists. -/
theorem foldl_mkdirOne_all (m : Nat) :
    ∀ (L : List (List Char)) (fs : List (List Char × Nat)),
      ∀ q ∈ L, dirExists (L.foldl (fun s p => mkdirOne s p m) fs) q = true := by
  intro L
  induction L with
  | nil => intro fs q hq; exact absurd hq (by simp)
  | cons a t ih =>
    intro fs q hq
    rw [List.foldl_cons]
    rcases List.mem_cons.mp hq with hqa | hq'
    · subst hqa
      apply foldl_mkdirOne_exists_mono m t
      rw [mkdirOne]
      split
      · rename_i hex; exact hex
      · rw [dirExists]
        simp
    · exact ih _ q hq'

/-- A directory distinct from every listed name stays absent through the
creation fold. -/
theorem foldl_mkdirOne_fresh (m : Nat) :
    ∀ (L : List (List Char)) (fs : List (List Char × Nat)) (x : List Char),
      (∀ p ∈ L, p ≠ x) → dirExists fs x = false →
      dirExists (L.foldl (fun s p => mkdirOne s p m) fs) x = false := by
  intro L
  induction L with
  | nil => intro fs x _ h; exact h
  | cons a t ih =>
    intro fs x hne h
    rw [List.foldl_cons]
    apply ih _ x (fun p hp => hne p (List.mem_cons_of_mem a hp))
    rw [mkdirOne]
    split
    · exact h
    · have hax : a ≠ x := hne a (List.mem_cons_self a t)
      rw [dirExists] at h ⊢
      simp only [List.any_cons]
      rw [h]
      simpa using hax

/-- A proper ancestor is strictly shorter than the directory itself. -/
theorem properAncestors_ne (d : List Char) : ∀ p ∈ properAncestors d, p ≠ d := by
  intro p hp
  rw [properAncestors, List.mem_filterMap] at hp
  rcases hp with ⟨i, hi, hif⟩
  rw [List.mem_range] at hi
  by_cases hc : d.getD i ' ' = '/'
  · rw [if_pos hc] at hif
    injection hif with hpi
    have hlen : p.length = i := by
      rw [← hpi, List.length_take]
      omega
    intro heq
    rw [heq] at hlen
    omega
  · rw [if_neg hc] at hif
    exact Option.noConfusion hif

/-- g_mkdir_with_parents makes the directory and all its ancestors exist. -/
theorem g_mkdir_with_parents_exists (fs : List (List Char × Nat)) (d : List Char)
    (m : Nat) : ∀ q ∈ properAncestors d ++ [d],
      dirExists (g_mkdir_with_parents fs d m) q = true :=
  fun q hq => foldl_mkdirOne_all m (properAncestors d ++ [d]) fs q hq

/-- A directory that was absent is recorded with the requested mode. -/
theorem g_mkdir_with_parents_fresh (fs : List (List Char × Nat)) (d : List Char)
    (m : Nat) (h : dirExists fs d = false) :
    (d, m) ∈ g_mkdir_with_parents fs d m := by
  rw [g_mkdir_with_parents, List.foldl_append, List.foldl_cons, List.foldl_nil]
  have hs : dirExists
      ((properAncestors d).foldl (fun s p => mkdirOne s p m) fs) d = false :=
    foldl_mkdirOne_fresh m (properAncestors d) fs d (properAncestors_ne d) h
  rw [mkdirOne, if_neg (by rw [hs]; exact Bool.noConfusion)]
  exact List.mem_cons_self _ _

/-- C6: util_build_path is total (the embedding returns a string for every
input) and after the call the part of the returned path before its last
slash exists in the modelled filesystem together with all its ancestors; a
part that did not exist before is created with permission mode 0700. -/
theorem util_build_path_creates_parent :
    ∀ (fs : List (List Char × Nat)) (platformHome cwd path : List Char)
      (dir : Option (List Char)),
      ∃ pre,
        lastSlashPre (util_build_path platformHome cwd path dir) = some pre
        ∧ (util_build_path_fs fs platformHome cwd path dir).1
            = util_build_path platformHome cwd path dir
        ∧ (∀ q ∈ properAncestors pre ++ [pre],
            dirExists (util_build_path_fs fs platformHome cwd path dir).2 q
              = true)
        ∧ (dirExists fs pre = false →
            (pre, 0o700) ∈ (util_build_path_fs fs platformHome cwd path dir).2) := by
  intro fs platformHome cwd path dir
  rcases lastSlashPre_isSome (util_build_path platformHome cwd path dir)
    (slash_mem_util_build_path platformHome cwd path dir) with ⟨pre, hpre⟩
  refine ⟨pre, hpre, ?_, ?_, ?_⟩
  · rw [util_build_path_fs, hpre]
  · rw [util_build_path_fs, hpre]
    exact g_mkdir_with_parents_exists fs pre 0o700
  · intro hfresh
    rw [util_build_path_fs, hpre]
    exact g_mkdir_with_parents_fresh fs pre 0o700 hfresh

/-- Witness for C6: resolving x against base /base creates /base with mode
0700 in an empty filesystem. -/
theorem util_build_path_creates_parent_witness :
    ∃ pre,
      lastSlashPre (util_build_path (str "/h") (str "/c") (str "x")
          (some (str "/base"))) = some pre
      ∧ (util_build_path_fs [] (str "/h") (str "/c") (str "x")
            (some (str "/base"))).1
          = util_build_path (str "/h") (str "/c") (str "x") (some (str "/base"))
      ∧ (∀ q ∈ properAncestors pre ++ [pre],
          dirExists ((util_build_path_fs [] (str "/h") (str "/c") (str "x")
              (some (str "/base"))).2) q = true)
      ∧ (dirExists [] pre = false →
          (pre, 0o700) ∈ (util_build_path_fs [] (str "/h") (str "/c") (str "x")
              (some (str "/base"))).2) :=
  util_build_path_creates_parent [] (str "/h") (str "/c") (str "x")
    (some (str "/base"))

end Vimb
